import Mathlib

/-!
Shallow embedding of the serialization, epoch-arithmetic and Merkle-registry
layer of go-zerokit-rln (package rln), together with proofs of the spec's
testable properties.

Byte strings are modelled as `List Nat` (each entry a byte value 0..255);
Go's fixed-width integer arithmetic is modelled on `Nat`/`Int` with explicit
reduction modulo 2^64 where the Go code wraps.  Go runtime panics
(out-of-range slice accesses, oversized allocations) are modelled by a
distinguished result constructor, separate from returned errors.
-/

/-- readLE interprets a byte list as a little-endian natural number.
It models what the Go code obtains from SetBytes(revert(bytes)). -/
def readLE (b : List Nat) : Nat :=
  b.foldr (fun d acc => d + 256 * acc) 0

/-- uint64LE models binary.LittleEndian.PutUint64: the 8-byte little-endian
encoding of the low 64 bits of a natural number. -/
def uint64LE (n : Nat) : List Nat :=
  [n % 256, n / 256 % 256, n / 256 ^ 2 % 256, n / 256 ^ 3 % 256,
   n / 256 ^ 4 % 256, n / 256 ^ 5 % 256, n / 256 ^ 6 % 256, n / 256 ^ 7 % 256]

theorem uint64LE_length (n : Nat) : (uint64LE n).length = 8 := rfl

theorem readLE_uint64LE (n : Nat) : readLE (uint64LE n) = n % 2 ^ 64 := by
  simp only [uint64LE, readLE, List.foldr]
  omega

/-- revert models the in-place byte reversal helper of utils.go (its result
is the reversed list; callers in the embedding never reuse the input). -/
def revert (b : List Nat) : List Nat := b.reverse

/-- natToBytesLEAux is a fuel-driven little-endian digit expansion; with fuel
at least the value itself it yields the minimal little-endian byte string. -/
def natToBytesLEAux : Nat → Nat → List Nat
  | 0, _ => []
  | fuel + 1, x => if x = 0 then [] else x % 256 :: natToBytesLEAux fuel (x / 256)

/-- bigIntBytes models Go big.Int.Bytes(): the minimal big-endian byte
representation of a non-negative integer (empty for zero). -/
def bigIntBytes (x : Nat) : List Nat := (natToBytesLEAux x x).reverse

/-- setBytes models Go big.Int.SetBytes: interpret a byte list as a
big-endian natural number. -/
def setBytes (b : List Nat) : Nat := b.foldl (fun acc d => acc * 256 + d) 0

/-- Bytes32 models rln.Bytes32: copy the input into the tail of a zeroed
32-byte array (Go panics when the input exceeds 32 bytes; every call in the
embedding passes at most 32 bytes). -/
def Bytes32 (b : List Nat) : List Nat := List.replicate (32 - b.length) 0 ++ b

/-- BigIntToBytes32 models rln.BigIntToBytes32: reverse the minimal
big-endian representation, then right-pad with zero bytes to 32 bytes
(tmp := make([]byte, 32); copy(tmp[0:len(b)], b); Bytes32(tmp)). -/
def BigIntToBytes32 (value : Nat) : List Nat :=
  let b := revert (bigIntBytes value)
  let tmp := b.take 32 ++ List.replicate (32 - b.length) 0
  Bytes32 tmp

/-- Bytes32ToBigInt models rln.Bytes32ToBigInt: reverse the 32-byte little
endian buffer and interpret it as a big-endian integer. -/
def Bytes32ToBigInt (value : List Nat) : Nat := setBytes (revert value)

theorem setBytes_reverse (b : List Nat) : setBytes b.reverse = readLE b := by
  simp only [setBytes, readLE, List.foldl_reverse]
  induction b with
  | nil => rfl
  | cons d rest ih =>
    simp only [List.foldr]
    rw [← ih]
    generalize List.foldr (fun x a => a * 256 + x) 0 rest = r
    ring

theorem readLE_natToBytesLEAux (fuel x : Nat) (h : x ≤ fuel) :
    readLE (natToBytesLEAux fuel x) = x := by
  induction fuel generalizing x with
  | zero =>
    interval_cases x
    rfl
  | succ k ih =>
    by_cases hx : x = 0
    · simp [natToBytesLEAux, hx, readLE]
    · have hdiv : x / 256 ≤ k := by omega
      simp only [natToBytesLEAux, hx, if_false, readLE, List.foldr]
      have := ih (x / 256) hdiv
      simp only [readLE] at this
      omega

theorem length_natToBytesLEAux (fuel x k : Nat) (h : x < 256 ^ k) :
    (natToBytesLEAux fuel x).length ≤ k := by
  induction fuel generalizing x k with
  | zero => simp [natToBytesLEAux]
  | succ m ih =>
    by_cases hx : x = 0
    · simp [natToBytesLEAux, hx]
    · have hk : k ≠ 0 := by
        rintro rfl
        simp at h
        omega
      obtain ⟨j, rfl⟩ : ∃ j, k = j + 1 := ⟨k - 1, by omega⟩
      simp only [natToBytesLEAux, hx, if_false, List.length_cons]
      have hdiv : x / 256 < 256 ^ j := by
        have h2 : 256 ^ (j + 1) = 256 * 256 ^ j := by ring
        rw [h2] at h
        exact Nat.div_lt_of_lt_mul h
      have := ih (x / 256) j hdiv
      omega

theorem readLE_append_zeros (l : List Nat) (k : Nat) :
    readLE (l ++ List.replicate k 0) = readLE l := by
  induction l with
  | nil =>
    simp only [List.nil_append, readLE]
    induction k with
    | zero => rfl
    | succ m ihm =>
      simp only [List.replicate, List.foldr] at ihm ⊢
      omega
  | cons d rest ih =>
    have step : ∀ t : List Nat, readLE (d :: t) = d + 256 * readLE t := by
      intro t
      rfl
    rw [List.cons_append, step, step, ih]

theorem bigIntToBytes32_eq (x : Nat) (h : x < 2 ^ 248) :
    BigIntToBytes32 x =
      natToBytesLEAux x x ++ List.replicate (32 - (natToBytesLEAux x x).length) 0 := by
  have hlen : (natToBytesLEAux x x).length ≤ 31 := by
    apply length_natToBytesLEAux
    have : (256 : Nat) ^ 31 = 2 ^ 248 := by norm_num
    omega
  simp only [BigIntToBytes32, revert, bigIntBytes, List.reverse_reverse, Bytes32]
  rw [List.take_of_length_le (by omega)]
  have h32 : (natToBytesLEAux x x ++
      List.replicate (32 - (natToBytesLEAux x x).length) 0).length = 32 := by
    simp only [List.length_append, List.length_replicate]
    omega
  rw [h32]
  simp

/-- C4: for every natural number x below 2^248, converting to the 32-byte
little-endian field representation and back is the identity:
Bytes32ToBigInt (BigIntToBytes32 x) = x. -/
theorem bytes32_bigint_roundtrip (x : Nat) (h : x < 2 ^ 248) :
    Bytes32ToBigInt (BigIntToBytes32 x) = x := by
  rw [bigIntToBytes32_eq x h]
  simp only [Bytes32ToBigInt, revert]
  rw [setBytes_reverse, readLE_append_zeros]
  exact readLE_natToBytesLEAux x x (Nat.le_refl x)

/-- C4 witness: the round-trip theorem instantiated at the concrete input
x = 324518553658426726783156020576255 = 2^108 - 1, which is below 2^248. -/
theorem bytes32_bigint_roundtrip_witness :
    (324518553658426726783156020576255 : Nat) < 2 ^ 248 ∧
      Bytes32ToBigInt (BigIntToBytes32 324518553658426726783156020576255) =
        324518553658426726783156020576255 :=
  ⟨by norm_num, bytes32_bigint_roundtrip 324518553658426726783156020576255 (by norm_num)⟩

/-- C5: BigIntToBytes32 applied to 2^248 - 1 yields 31 bytes of 0xFF followed
by a single 0x00 byte. -/
theorem bigIntToBytes32_vector :
    BigIntToBytes32 (2 ^ 248 - 1) = List.replicate 31 255 ++ [0] := by
  decide

/-- ToEpoch models rln.ToEpoch: a 32-byte epoch whose first 8 bytes hold the
little-endian counter and whose remaining 24 bytes are zero. -/
def ToEpoch (t : Nat) : List Nat := uint64LE t ++ List.replicate 24 0

/-- BytesToEpoch models rln.BytesToEpoch: copy at most 32 input bytes into a
zeroed 32-byte array (copy stops at the shorter of the two). -/
def BytesToEpoch (b : List Nat) : List Nat :=
  b.take 32 ++ List.replicate (32 - b.length) 0

/-- epochUint64 models Epoch.Uint64: little-endian read of the first 8 bytes. -/
def epochUint64 (e : List Nat) : Nat := readLE (e.take 8)

/-- toInt64 reinterprets the low 64 bits of a natural number as a signed
64-bit integer (Go conversion int64(u) for a uint64 u). -/
def toInt64 (n : Nat) : Int :=
  if n % 2 ^ 64 < 2 ^ 63 then (n % 2 ^ 64 : Nat) else (n % 2 ^ 64 : Nat) - 2 ^ 64

/-- wrapInt64 reduces an integer to the signed 64-bit range, modelling Go's
wrapping int64 arithmetic. -/
def wrapInt64 (z : Int) : Int := (z + 2 ^ 63) % 2 ^ 64 - 2 ^ 63

/-- Diff models rln.Diff: int64(e1.Uint64()) - int64(e2.Uint64()) with Go's
wrapping 64-bit signed subtraction. -/
def Diff (e1 e2 : List Nat) : Int :=
  wrapInt64 (toInt64 (epochUint64 e1) - toInt64 (epochUint64 e2))

theorem epochUint64_toEpoch (t : Nat) : epochUint64 (ToEpoch t) = t % 2 ^ 64 := by
  have h8 : (uint64LE t).take 8 = uint64LE t := by
    apply List.take_of_length_le
    rw [uint64LE_length]
  simp only [epochUint64, ToEpoch, List.take_append_of_le_length
    (by rw [uint64LE_length] : 8 ≤ (uint64LE t).length), h8]
  exact readLE_uint64LE t

/-- C6: the epoch difference of adjacent counters is exactly 1 (and -1 in
the reverse direction) for every counter value below 2^64, including at the
uint64 maximum boundary; the subtraction is performed after widening both
counters to signed 64-bit, so no unsigned wraparound is applied. -/
theorem epoch_diff_adjacent (t : Nat) (h0 : 0 < t) (h1 : t < 2 ^ 64) :
    Diff (ToEpoch t) (ToEpoch (t - 1)) = 1 ∧
      Diff (ToEpoch (t - 1)) (ToEpoch t) = -1 := by
  have e1 := epochUint64_toEpoch t
  have e2 := epochUint64_toEpoch (t - 1)
  have m1 : t % 2 ^ 64 = t := Nat.mod_eq_of_lt h1
  have m2 : (t - 1) % 2 ^ 64 = t - 1 := Nat.mod_eq_of_lt (by omega)
  constructor
  · simp only [Diff, e1, e2, m1, m2, toInt64, wrapInt64]
    split <;> split <;> omega
  · simp only [Diff, e1, e2, m1, m2, toInt64, wrapInt64]
    split <;> split <;> omega

/-- C6 witness: the boundary instances Diff(ToEpoch(MaxUint64),
ToEpoch(MaxUint64 - 1)) = 1 and Diff(ToEpoch(MaxUint64 - 1),
ToEpoch(MaxUint64)) = -1. -/
theorem epoch_diff_adjacent_witness :
    0 < 2 ^ 64 - 1 ∧ 2 ^ 64 - 1 < 2 ^ 64 ∧
      (Diff (ToEpoch (2 ^ 64 - 1)) (ToEpoch (2 ^ 64 - 1 - 1)) = 1 ∧
        Diff (ToEpoch (2 ^ 64 - 1 - 1)) (ToEpoch (2 ^ 64 - 1)) = -1) :=
  ⟨by norm_num, by norm_num,
    epoch_diff_adjacent (2 ^ 64 - 1) (by norm_num) (by norm_num)⟩

theorem uint64LE_inj (a b : Nat) (ha : a < 2 ^ 64) (hb : b < 2 ^ 64)
    (h : uint64LE a = uint64LE b) : a = b := by
  have := congrArg readLE h
  rw [readLE_uint64LE, readLE_uint64LE, Nat.mod_eq_of_lt ha, Nat.mod_eq_of_lt hb] at this
  exact this

/-- C8 counterexample: the all-zero epoch and the epoch built by
BytesToEpoch from 31 zero bytes followed by one 0x01 byte have equal 8-byte
counters but compare unequal as 32-byte values, refuting the claimed
equivalence between epoch equality and counter equality. -/
theorem epoch_eq_counterexample :
    epochUint64 (ToEpoch 0) =
        epochUint64 (BytesToEpoch (List.replicate 31 0 ++ [1])) ∧
      ToEpoch 0 ≠ BytesToEpoch (List.replicate 31 0 ++ [1]) := by
  decide

/-- C8 amended: epoch equality implies counter equality, and for epochs in
the image of ToEpoch (trailing 24 bytes zero) with counters below 2^64,
equality holds exactly when the counters match; epochs built from arbitrary
32-byte input can differ in the trailing 24 bytes and then compare unequal
despite equal counters. -/
theorem epoch_eq_iff_counter (t1 t2 : Nat) (h1 : t1 < 2 ^ 64) (h2 : t2 < 2 ^ 64) :
    (∀ a b : List Nat, a = b → epochUint64 a = epochUint64 b) ∧
      (ToEpoch t1 = ToEpoch t2 ↔ epochUint64 (ToEpoch t1) = epochUint64 (ToEpoch t2)) := by
  refine ⟨fun a b hab => by rw [hab], ?_, ?_⟩
  · intro h
    rw [h]
  · intro h
    rw [epochUint64_toEpoch, epochUint64_toEpoch,
      Nat.mod_eq_of_lt h1, Nat.mod_eq_of_lt h2] at h
    rw [h]

/-- C8 witness: the amended equivalence instantiated at the counters 5 and 5
and separately exercised through the nontrivial direction at 5 versus 6. -/
theorem epoch_eq_iff_counter_witness :
    (5 : Nat) < 2 ^ 64 ∧ (6 : Nat) < 2 ^ 64 ∧
      (ToEpoch 5 = ToEpoch 6 ↔ epochUint64 (ToEpoch 5) = epochUint64 (ToEpoch 6)) :=
  ⟨by norm_num, by norm_num, (epoch_eq_iff_counter 5 6 (by norm_num) (by norm_num)).2⟩

/-- Flatten models rln.Flatten on a slice of 32-byte nodes: each node is
copied into its own 32-byte chunk (a Go [32]byte is always exactly 32 bytes;
the model pads or truncates defensively to keep the chunk width fixed). -/
def Flatten (b : List (List Nat)) : List Nat :=
  b.flatMap fun v => v.take 32 ++ List.replicate (32 - v.length) 0

/-- appendLength models rln.appendLength: an 8-byte little-endian byte count
followed by the input. -/
def appendLength (input : List Nat) : List Nat :=
  uint64LE input.length ++ input

/-- Modelled from the spec: appendLength32 is called by MerkleProof.serialize
but its definition is not among the provided sources; per the spec the
Merkle-proof layout is [ pathLen<8> | flattenedPathElements<32*pathLen> | ... ],
so the 8-byte little-endian prefix holds the number of 32-byte chunks of the
input, i.e. len(input)/32. -/
def appendLength32 (input : List Nat) : List Nat :=
  uint64LE (input.length / 32) ++ input

/-- Modelled from the spec: the MerkleProof struct itself is declared in a
file not among the provided sources; per the spec it is the pair of the
ordered 32-byte sibling hashes and the ordered one-byte direction bits. -/
structure MerkleProof where
  PathElements : List (List Nat)
  PathIndexes : List Nat
deriving DecidableEq, Repr

/-- MerkleProof.serialize models the source method: the chunk-counted
flattened path elements followed by the byte-counted path indexes. -/
def MerkleProof.serialize (r : MerkleProof) : List Nat :=
  appendLength32 (Flatten r.PathElements) ++ appendLength r.PathIndexes

/-- DeserializeResult distinguishes a successfully parsed proof, a returned
error, and a Go runtime panic (out-of-range slice access or oversized
make allocation), which is not a returned error. -/
inductive DeserializeResult where
  | ok (p : MerkleProof)
  | err (msg : String)
  | abort
deriving DecidableEq, Repr

/-- readChunks splits the front of a byte list into the given number of
32-byte chunks, modelling the element-copy loop of deserialize. -/
def readChunks (b : List Nat) : Nat → List (List Nat)
  | 0 => []
  | k + 1 => b.take 32 :: readChunks (b.drop 32) k

/-- MerkleProof.deserialize models the source method on a 64-bit platform.
The expected-length check is computed with Go's wrapping int64 arithmetic:
expectedLen = 8 + int(32*n) + 8 + int(n) wraps modulo 2^64, and two int64
values are equal exactly when they are congruent modulo 2^64, so the check
compares len(b) and 16 + 33*n modulo 2^64 (Go slice lengths are below 2^63,
so len(b) is its own representative).  After the check, the element loop
reads b[8+32*i : 8+32*i+32] for each i below n, the index-count read is
b[8+32*n : 8+32*n+8], and the index loop reads one byte per index; each of
these panics (abort) when its upper bound exceeds len(b). -/
def MerkleProof.deserialize (b : List Nat) : DeserializeResult :=
  if b.length < 8 then
    .err "wrong input size"
  else
    let n := readLE (b.take 8)
    if b.length % 2 ^ 64 ≠ (16 + 33 * n) % 2 ^ 64 then
      .err "wrong input size expected"
    else if 0 < n ∧ b.length < 8 + 32 * n then
      .abort
    else
      let elements := readChunks (b.drop 8) n
      if b.length < 8 + 32 * n + 8 then
        .abort
      else
        let m := readLE ((b.drop (8 + 32 * n)).take 8)
        if m ≠ n then
          .err "amount of values in path and indexes do not match"
        else if 0 < m ∧ b.length < 8 + 32 * n + 8 + m then
          .abort
        else
          let indexes := (b.drop (8 + 32 * n + 8)).take m
          if 8 + 32 * n + 8 + m ≠ b.length then
            .err "error parsing proof"
          else
            .ok { PathElements := elements, PathIndexes := indexes }

theorem Flatten_length (b : List (List Nat)) : (Flatten b).length = 32 * b.length := by
  induction b with
  | nil => rfl
  | cons v vs ih =>
    simp only [Flatten, List.flatMap_cons, List.length_append, List.length_take,
      List.length_replicate, List.length_cons] at ih ⊢
    omega

theorem readChunks_length (k : Nat) (b : List Nat) : (readChunks b k).length = k := by
  induction k generalizing b with
  | zero => rfl
  | succ j ih => simp [readChunks, ih]

theorem readChunks_flatten (els : List (List Nat)) (rest : List Nat)
    (h : ∀ e ∈ els, e.length = 32) :
    readChunks (Flatten els ++ rest) els.length = els := by
  induction els with
  | nil => rfl
  | cons v vs ih =>
    have hv : v.length = 32 := h v (by simp)
    have hchunk : v.take 32 ++ List.replicate (32 - v.length) 0 = v := by
      rw [hv]
      simp [List.take_of_length_le, hv.le]
    simp only [Flatten, List.flatMap_cons, hchunk, List.length_cons, readChunks,
      List.append_assoc]
    rw [List.take_left' hv, List.drop_left' hv]
    exact congrArg (v :: ·) (ih fun e he => h e (by simp [he]))

theorem merkleProof_serialize_eq (p : MerkleProof) (n : Nat)
    (hE : p.PathElements.length = n) :
    MerkleProof.serialize p =
      uint64LE n ++ Flatten p.PathElements ++ uint64LE p.PathIndexes.length
        ++ p.PathIndexes := by
  simp only [MerkleProof.serialize, appendLength32, appendLength, Flatten_length, hE,
    List.append_assoc, Nat.mul_div_cancel_left n (by norm_num : (0 : Nat) < 32)]

/-- C3: the serialized MerkleProof of a proof with n path elements and n
path indexes is exactly 8 + 32*n + 8 + n bytes long; in particular a proof
with zero path elements serializes to exactly 16 bytes. -/
theorem merkleProof_serialize_length (p : MerkleProof) (n : Nat)
    (hE : p.PathElements.length = n) (hI : p.PathIndexes.length = n) :
    (MerkleProof.serialize p).length = 8 + 32 * n + 8 + n := by
  rw [merkleProof_serialize_eq p n hE]
  simp only [List.length_append, uint64LE_length, Flatten_length, hE, hI]

/-- C3 witness: the size law instantiated at the empty proof (16 bytes) and
the hypotheses discharged there. -/
theorem merkleProof_serialize_length_witness :
    (MerkleProof.mk [] []).PathElements.length = 0 ∧
      (MerkleProof.mk [] []).PathIndexes.length = 0 ∧
      (MerkleProof.serialize (MerkleProof.mk [] [])).length = 8 + 32 * 0 + 8 + 0 :=
  ⟨rfl, rfl, merkleProof_serialize_length (MerkleProof.mk [] []) 0 rfl rfl⟩

/-- C1: deserializing the serialization of any MerkleProof whose element and
index sequences share a length n with n at most 32 succeeds and returns the
proof unchanged, field by field. -/
theorem merkleProof_serde_roundtrip (p : MerkleProof) (n : Nat)
    (hE : p.PathElements.length = n) (hI : p.PathIndexes.length = n) (hn : n ≤ 32)
    (helem : ∀ e ∈ p.PathElements, e.length = 32) :
    MerkleProof.deserialize (MerkleProof.serialize p) = DeserializeResult.ok p := by
  obtain ⟨E, I⟩ := p
  simp only at hE hI helem
  rw [merkleProof_serialize_eq ⟨E, I⟩ n hE]
  simp only
  set b := uint64LE n ++ Flatten E ++ uint64LE I.length ++ I with hb
  have hblen : b.length = 8 + 32 * n + 8 + n := by
    simp only [hb, List.length_append, uint64LE_length, Flatten_length, hE, hI]
  have htake8 : b.take 8 = uint64LE n := by
    simp only [hb, List.append_assoc]
    exact List.take_left' (uint64LE_length n)
  have hreadn : readLE (b.take 8) = n := by
    rw [htake8, readLE_uint64LE]
    have : (2 : Nat) ^ 64 = 18446744073709551616 := by norm_num
    omega
  have hdrop8 : b.drop 8 = Flatten E ++ (uint64LE I.length ++ I) := by
    simp only [hb, List.append_assoc]
    exact List.drop_left' (uint64LE_length n)
  have hdropn : b.drop (8 + 32 * n) = uint64LE I.length ++ I := by
    have : b = (uint64LE n ++ Flatten E) ++ (uint64LE I.length ++ I) := by
      simp [hb, List.append_assoc]
    rw [this, List.drop_left']
    simp only [List.length_append, uint64LE_length, Flatten_length, hE]
  have hreadm : readLE ((b.drop (8 + 32 * n)).take 8) = n := by
    rw [hdropn, List.take_left' (uint64LE_length I.length), readLE_uint64LE, hI]
    have : (2 : Nat) ^ 64 = 18446744073709551616 := by norm_num
    omega
  have hdropidx : b.drop (8 + 32 * n + 8) = I := by
    have : b = ((uint64LE n ++ Flatten E) ++ uint64LE I.length) ++ I := by
      simp [hb, List.append_assoc]
    rw [this, List.drop_left']
    simp only [List.length_append, uint64LE_length, Flatten_length, hE]
  have hchunks : readChunks (b.drop 8) n = E := by
    rw [hdrop8, ← hE]
    exact readChunks_flatten E (uint64LE I.length ++ I) helem
  rw [MerkleProof.deserialize]
  rw [if_neg (by omega)]
  simp only [hreadn]
  rw [if_neg (by omega)]
  rw [if_neg (by omega)]
  rw [if_neg (by omega)]
  simp only [hreadm]
  rw [if_neg (by omega)]
  rw [if_neg (by omega)]
  rw [if_neg (by omega)]
  rw [hchunks, hdropidx]
  rw [List.take_of_length_le (by omega)]

/-- C1 witness: the round trip at a concrete one-element proof, with the
hypotheses discharged at that input. -/
theorem merkleProof_serde_roundtrip_witness :
    (MerkleProof.mk [List.replicate 32 7] [1]).PathElements.length = 1 ∧
      (MerkleProof.mk [List.replicate 32 7] [1]).PathIndexes.length = 1 ∧
      (1 : Nat) ≤ 32 ∧
      MerkleProof.deserialize
          (MerkleProof.serialize (MerkleProof.mk [List.replicate 32 7] [1])) =
        DeserializeResult.ok (MerkleProof.mk [List.replicate 32 7] [1]) :=
  ⟨rfl, rfl, by norm_num,
    merkleProof_serde_roundtrip (MerkleProof.mk [List.replicate 32 7] [1]) 1
      rfl rfl (by norm_num) (by decide)⟩

/-- C2: at the 17-byte input whose first 8 bytes are the little-endian
encoding of n = 1117984489315730401 (the inverse of 33 modulo 2^64) the
wrapped expected-length check passes, because 16 + 33*n is congruent to 17
modulo 2^64, and the element-copy loop then reads b[8:40] out of range: the
code panics instead of returning the error that the claim (and the spec)
require for a length mismatch. -/
theorem merkleProof_deserialize_overflow_panics :
    MerkleProof.deserialize
        ([225, 131, 15, 62, 248, 224, 131, 15] ++ List.replicate 9 0) =
      DeserializeResult.abort := by
  decide

/-- C10 counterexample: deserialize is not total on arbitrary input; at the
18-byte input whose first 8 bytes encode n = 2235968978631460802 (twice the
inverse of 33 modulo 2^64) the wrapped length check passes and the element
loop panics with an out-of-range access, so the result is neither a
returned error nor a parsed proof. -/
theorem merkleProof_deserialize_not_total :
    MerkleProof.deserialize
        ([194, 7, 31, 124, 240, 193, 7, 31] ++ List.replicate 10 0) =
      DeserializeResult.abort := by
  decide

/-- C10 amended: for every input whose decoded leading element count n
satisfies 16 + 33*n < 2^64 (so the expected-length computation does not
overflow int64), deserialize is total: it never panics, and when it returns
a proof both field lengths equal n.  Inputs violating this bound can make
the wrapped check collide with the actual length and panic. -/
theorem merkleProof_deserialize_total (b : List Nat) (hlen : b.length < 2 ^ 63)
    (hn : 16 + 33 * readLE (b.take 8) < 2 ^ 64) :
    MerkleProof.deserialize b ≠ DeserializeResult.abort ∧
      ∀ p, MerkleProof.deserialize b = DeserializeResult.ok p →
        p.PathElements.length = readLE (b.take 8) ∧
          p.PathIndexes.length = readLE (b.take 8) := by
  set n := readLE (b.take 8) with hndef
  rw [MerkleProof.deserialize]
  by_cases h8 : b.length < 8
  · rw [if_pos h8]
    exact ⟨(fun h => nomatch h), (fun p hp => nomatch hp)⟩
  · rw [if_neg h8]
    by_cases hmod : b.length % 2 ^ 64 ≠ (16 + 33 * n) % 2 ^ 64
    · rw [if_pos hmod]
      exact ⟨(fun h => nomatch h), (fun p hp => nomatch hp)⟩
    · have heq : b.length = 16 + 33 * n := by
        rw [not_not] at hmod
        have h63 : (2 : Nat) ^ 63 < 2 ^ 64 := by norm_num
        rw [Nat.mod_eq_of_lt (by omega), Nat.mod_eq_of_lt hn] at hmod
        exact hmod
      rw [if_neg hmod]
      rw [if_neg (by omega)]
      rw [if_neg (by omega)]
      by_cases hm : readLE ((b.drop (8 + 32 * n)).take 8) ≠ n
      · rw [if_pos hm]
        exact ⟨(fun h => nomatch h), (fun p hp => nomatch hp)⟩
      · rw [not_not] at hm
        rw [if_neg (by rw [hm]; omega)]
        rw [if_neg (by rw [hm]; omega)]
        rw [if_neg (by rw [hm]; omega)]
        refine ⟨(fun h => nomatch h), fun p hp => ?_⟩
        have hp2 : MerkleProof.mk (readChunks (b.drop 8) n)
            ((b.drop (8 + 32 * n + 8)).take (readLE ((b.drop (8 + 32 * n)).take 8)))
              = p := by
          injection hp
        rw [← hp2]
        constructor
        · exact readChunks_length n (b.drop 8)
        · simp only [List.length_take, List.length_drop, hm]
          omega

/-- C10 witness: the amended totality theorem applied to the 16-byte
serialization of the empty proof, whose decoded count is 0. -/
theorem merkleProof_deserialize_total_witness :
    (List.replicate 16 0 : List Nat).length < 2 ^ 63 ∧
      16 + 33 * readLE ((List.replicate 16 0 : List Nat).take 8) < 2 ^ 64 ∧
      (MerkleProof.deserialize (List.replicate 16 0) ≠ DeserializeResult.abort ∧
        ∀ p, MerkleProof.deserialize (List.replicate 16 0) = DeserializeResult.ok p →
          p.PathElements.length = readLE ((List.replicate 16 0 : List Nat).take 8) ∧
            p.PathIndexes.length = readLE ((List.replicate 16 0 : List Nat).take 8)) :=
  ⟨by norm_num, by decide,
    merkleProof_deserialize_total (List.replicate 16 0) (by norm_num) (by decide)⟩

/-- IdentityCredential models the struct of types.go: four 32-byte fields. -/
structure IdentityCredential where
  IDTrapdoor : List Nat
  IDNullifier : List Nat
  IDSecretHash : List Nat
  IDCommitment : List Nat
deriving DecidableEq, Repr

/-- Modelled from the spec: the RLNWitnessInput struct is declared in a file
not among the provided sources; per the spec it bundles the identity
credential (secret fields), the Merkle proof, the message data, the epoch
and the RLN identifier. -/
structure RLNWitnessInput where
  IdentityCredential : IdentityCredential
  MerkleProof : MerkleProof
  Data : List Nat
  Epoch : List Nat
  RlnIdentifier : List Nat
deriving DecidableEq, Repr

/-- RLNWitnessInput.serialize models the source method: the 32-byte identity
secret hash, the self-length-prefixed serialized Merkle proof, the data with
no length prefix, the 32-byte epoch and the 32-byte RLN identifier, in that
order. -/
def RLNWitnessInput.serialize (r : RLNWitnessInput) : List Nat :=
  r.IdentityCredential.IDSecretHash ++ r.MerkleProof.serialize ++ r.Data
    ++ r.Epoch ++ r.RlnIdentifier

/-- C7: the serialized witness consists of exactly the identity secret hash,
the serialized Merkle proof, the unprefixed data, the epoch and the RLN
identifier, in order, and for a proof of depth d and data of k bytes its
length is exactly 32 + (8 + 32*d + 8 + d) + k + 32 + 32. -/
theorem witness_serialize_layout (r : RLNWitnessInput) (d k : Nat)
    (hsec : r.IdentityCredential.IDSecretHash.length = 32)
    (hE : r.MerkleProof.PathElements.length = d)
    (hI : r.MerkleProof.PathIndexes.length = d)
    (hdata : r.Data.length = k)
    (hep : r.Epoch.length = 32)
    (hid : r.RlnIdentifier.length = 32) :
    RLNWitnessInput.serialize r =
        r.IdentityCredential.IDSecretHash ++ r.MerkleProof.serialize ++ r.Data
          ++ r.Epoch ++ r.RlnIdentifier ∧
      ((RLNWitnessInput.serialize r).take 32 = r.IdentityCredential.IDSecretHash ∧
        ((RLNWitnessInput.serialize r).drop 32).take (8 + 32 * d + 8 + d) =
          r.MerkleProof.serialize ∧
        ((RLNWitnessInput.serialize r).drop (32 + (8 + 32 * d + 8 + d))).take k =
          r.Data ∧
        ((RLNWitnessInput.serialize r).drop (32 + (8 + 32 * d + 8 + d) + k)).take 32 =
          r.Epoch ∧
        (RLNWitnessInput.serialize r).drop (32 + (8 + 32 * d + 8 + d) + k + 32) =
          r.RlnIdentifier) ∧
      (RLNWitnessInput.serialize r).length =
        32 + (8 + 32 * d + 8 + d) + k + 32 + 32 := by
  have hser : (MerkleProof.serialize r.MerkleProof).length = 8 + 32 * d + 8 + d :=
    merkleProof_serialize_length r.MerkleProof d hE hI
  refine ⟨rfl, ⟨?_, ?_, ?_, ?_, ?_⟩, ?_⟩
  · rw [RLNWitnessInput.serialize, List.append_assoc, List.append_assoc,
      List.append_assoc, List.take_left' hsec]
  · rw [RLNWitnessInput.serialize, List.append_assoc, List.append_assoc,
      List.append_assoc, List.drop_left' hsec]
    exact List.take_left' hser
  · rw [RLNWitnessInput.serialize]
    rw [show r.IdentityCredential.IDSecretHash ++ r.MerkleProof.serialize ++ r.Data
        ++ r.Epoch ++ r.RlnIdentifier =
      (r.IdentityCredential.IDSecretHash ++ r.MerkleProof.serialize) ++
        (r.Data ++ (r.Epoch ++ r.RlnIdentifier)) by simp [List.append_assoc]]
    rw [List.drop_left' (by simp only [List.length_append, hsec, hser])]
    rw [List.take_left' hdata]
  · rw [RLNWitnessInput.serialize]
    rw [show r.IdentityCredential.IDSecretHash ++ r.MerkleProof.serialize ++ r.Data
        ++ r.Epoch ++ r.RlnIdentifier =
      (r.IdentityCredential.IDSecretHash ++ r.MerkleProof.serialize ++ r.Data) ++
        (r.Epoch ++ r.RlnIdentifier) by simp [List.append_assoc]]
    rw [List.drop_left' (by simp only [List.length_append, hsec, hser, hdata])]
    rw [List.take_left' hep]
  · rw [RLNWitnessInput.serialize]
    rw [show r.IdentityCredential.IDSecretHash ++ r.MerkleProof.serialize ++ r.Data
        ++ r.Epoch ++ r.RlnIdentifier =
      (r.IdentityCredential.IDSecretHash ++ r.MerkleProof.serialize ++ r.Data
        ++ r.Epoch) ++ r.RlnIdentifier by simp [List.append_assoc]]
    rw [List.drop_left' (by simp only [List.length_append, hsec, hser, hdata, hep])]
  · rw [RLNWitnessInput.serialize]
    simp only [List.length_append, hsec, hser, hdata, hep, hid]

/-- c7Example is a concrete witness input with a depth-1 Merkle proof and a
32-byte data field, used only by the C7 witness theorem. -/
def c7Example : RLNWitnessInput :=
  { IdentityCredential :=
      { IDTrapdoor := List.replicate 32 1
        IDNullifier := List.replicate 32 2
        IDSecretHash := List.replicate 32 3
        IDCommitment := List.replicate 32 4 }
    MerkleProof := { PathElements := [List.replicate 32 7], PathIndexes := [1] }
    Data := List.replicate 32 5
    Epoch := List.replicate 32 0
    RlnIdentifier := List.replicate 32 6 }

/-- C7 witness: the layout theorem applied to the concrete witness input of
depth 1 and 32-byte data, with all hypotheses discharged there. -/
theorem witness_serialize_layout_witness :
    c7Example.IdentityCredential.IDSecretHash.length = 32 ∧
      c7Example.MerkleProof.PathElements.length = 1 ∧
      c7Example.MerkleProof.PathIndexes.length = 1 ∧
      c7Example.Data.length = 32 ∧
      c7Example.Epoch.length = 32 ∧
      c7Example.RlnIdentifier.length = 32 ∧
      (RLNWitnessInput.serialize c7Example).length =
        32 + (8 + 32 * 1 + 8 + 1) + 32 + 32 + 32 :=
  ⟨rfl, rfl, rfl, rfl, rfl, rfl,
    (witness_serialize_layout c7Example 1 32 rfl rfl rfl rfl rfl rfl).2.2⟩

/-- Modelled from the spec: the Merkle tree itself lives in the external
zerokit backend (src only carries the FFI calls set_next_leaf, delete_leaf
and get_root), so the registry is modelled per the spec as a perfect binary
tree of a fixed depth over an abstract node type, with an abstract two-child
hash, an all-zero empty-leaf value, insertion at the next free index and
deletion by overwriting with the empty-leaf value. -/
structure RLNState (α : Type) where
  depth : Nat
  leaves : Nat → α
  nextIndex : Nat

/-- levelUp combines adjacent leaves of one tree level with the hash. -/
def levelUp {α : Type} (h : α → α → α) (f : Nat → α) : Nat → α :=
  fun i => h (f (2 * i)) (f (2 * i + 1))

/-- merkleRootOfLeaves recomputes the root of a perfect binary tree of the
given depth from its leaf assignment. -/
def merkleRootOfLeaves {α : Type} (h : α → α → α) : Nat → (Nat → α) → α
  | 0, f => f 0
  | d + 1, f => merkleRootOfLeaves h d (levelUp h f)

/-- NewRLN models constructing a registry over an empty tree: every leaf
holds the empty-leaf value and the next free index is 0. -/
def NewRLN {α : Type} (z : α) (d : Nat) : RLNState α :=
  { depth := d, leaves := fun _ => z, nextIndex := 0 }

/-- InsertMember models set_next_leaf: write the commitment at the next free
index and advance it. -/
def InsertMember {α : Type} (s : RLNState α) (c : α) : RLNState α :=
  { s with leaves := Function.update s.leaves s.nextIndex c,
           nextIndex := s.nextIndex + 1 }

/-- DeleteMember models delete_leaf: replace the leaf at the index with the
empty-leaf value, shifting nothing. -/
def DeleteMember {α : Type} (z : α) (s : RLNState α) (i : Nat) : RLNState α :=
  { s with leaves := Function.update s.leaves i z }

/-- GetMerkleRoot models get_root: recompute the root from the leaves. -/
def GetMerkleRoot {α : Type} (h : α → α → α) (s : RLNState α) : α :=
  merkleRootOfLeaves h s.depth s.leaves

theorem levelUp_update_zero {α : Type} (h : α → α → α) (z c : α) :
    levelUp h (Function.update (fun _ => z) 0 c) =
      Function.update (fun _ => h z z) 0 (h c z) := by
  funext i
  rcases i with _ | j
  · simp [levelUp, Function.update]
  · have h1 : 2 * (j + 1) ≠ 0 := by omega
    have h2 : 2 * (j + 1) + 1 ≠ 0 := by omega
    simp [levelUp, Function.update, h1, h2]

theorem levelUp_const {α : Type} (h : α → α → α) (z : α) :
    levelUp h (fun _ => z) = fun _ => h z z := by
  funext i
  simp [levelUp]

theorem merkleRoot_update_zero_ne {α : Type} (h : α → α → α)
    (hinj : ∀ x y w : α, h x w = h y w → x = y) (d : Nat) (z c : α) (hc : c ≠ z) :
    merkleRootOfLeaves h d (Function.update (fun _ => z) 0 c) ≠
      merkleRootOfLeaves h d (fun _ => z) := by
  induction d generalizing z c with
  | zero =>
    simpa [merkleRootOfLeaves, Function.update] using hc
  | succ j ih =>
    simp only [merkleRootOfLeaves, levelUp_update_zero, levelUp_const]
    exact ih (h z z) (h c z) fun hcz => hc (hinj c z z hcz)

/-- C9: on the registry over the empty tree of any depth, inserting one
commitment changes the root, and then deleting that leaf (index 0) restores
the empty-tree root exactly; the change of root is proved under the
assumptions that the commitment differs from the empty-leaf value and that
the hash is injective in its first argument. -/
theorem insert_delete_restores_root {α : Type} (h : α → α → α) (z c : α) (d : Nat)
    (hc : c ≠ z) (hinj : ∀ x y w : α, h x w = h y w → x = y) :
    GetMerkleRoot h (InsertMember (NewRLN z d) c) ≠ GetMerkleRoot h (NewRLN z d) ∧
      GetMerkleRoot h (DeleteMember z (InsertMember (NewRLN z d) c) 0) =
        GetMerkleRoot h (NewRLN z d) := by
  constructor
  · simp only [GetMerkleRoot, InsertMember, NewRLN]
    exact merkleRoot_update_zero_ne h hinj d z c hc
  · simp only [GetMerkleRoot, DeleteMember, InsertMember, NewRLN]
    rw [Function.update_idem]
    rw [show Function.update (fun _ : Nat => z) 0 z = fun _ => z from
      Function.update_eq_self 0 (fun _ => z)]

/-- C9 witness: the theorem instantiated at depth 2 over natural-number
nodes with the pairing-style hash h x y = 2^64 * x + y (injective in its
first argument), empty-leaf value 0 and commitment 1. -/
theorem insert_delete_restores_root_witness :
    (1 : Nat) ≠ 0 ∧
      (GetMerkleRoot (fun x y => 2 ^ 64 * x + y) (InsertMember (NewRLN 0 2) 1) ≠
          GetMerkleRoot (fun x y => 2 ^ 64 * x + y) (NewRLN 0 2) ∧
        GetMerkleRoot (fun x y => 2 ^ 64 * x + y)
            (DeleteMember 0 (InsertMember (NewRLN 0 2) 1) 0) =
          GetMerkleRoot (fun x y => 2 ^ 64 * x + y) (NewRLN 0 2)) :=
  ⟨by norm_num,
    insert_delete_restores_root (fun x y => 2 ^ 64 * x + y) 0 1 2 (by norm_num)
      (fun x y w hw => by simpa using hw)⟩
